import Mathlib

/-!
Verification of the telemetry core of the Linux_Process_Manager repository:
a shallow embedding, in Lean 4, of the process registry
(`src/process.rs`), the rule evaluator (`src/scripting_rules.rs`), the
bounded time-series store (`src/graph.rs`) and the lifecycle (exit) log
(`src/ui.rs`, `App::refresh`), together with theorems settling the
testable properties stated in the specification.

Embedding conventions:
* Rust `f32`/`f64` values are embedded as `ℚ` (the claims under scrutiny
  involve only exact arithmetic such as `100 * (1 - 50/100)`).
* Rust `u32`/`u64`/`usize` are embedded as `ℕ` (with Rust's `u64`
  subtraction of monotone counters embedded as truncated `ℕ` subtraction),
  `i32`/`i64` as `ℤ`.
* Rust `VecDeque` (used only through `push_back`/`pop_front`/`len`) is
  embedded as `List`, `push_back` appending on the right and `pop_front`
  taking `tail`.
* Rust `HashMap<u32, _>` (used only through `entry().or_insert_with`,
  in-place value mutation, and `retain`) is embedded as an association
  list `List (ℕ × _)` with unique keys; `retain` becomes `List.filter`.
* Rust strings are embedded as `String` whose character list is
  manipulated directly, since the relevant operations (`contains`,
  `to_lowercase`, `trim`, `chrono` parsing) act on character sequences.
* Wall-clock time (`Instant`, `Local::now()`) is passed explicitly as a
  parameter; the rate-limiting early return of `GraphData::update`
  (a pure real-time gate) is not modelled — `update` below is the body
  that runs when the interval has elapsed.
-/

/-! ## Character-level string helpers (Rust `str` operations) -/

/-- `pre.isPrefixAt s`-style check: Rust's `str::starts_with` on
character lists: `strStartsWith s p` is true iff `p` is an initial
segment of `s`. -/
def strStartsWith : List Char → List Char → Bool
  | _, [] => true
  | [], _ :: _ => false
  | c :: s, p :: ps => c = p && strStartsWith s ps

/-- Rust's `str::contains(pat)` on character lists: substring
containment (the empty pattern is contained in every string). -/
def containsSub : List Char → List Char → Bool
  | s, p => strStartsWith s p ||
      (match s with
       | [] => false
       | _ :: t => containsSub t p)

/-- Rust's `str::to_lowercase` on character lists (character-wise
lowercasing; the repository only filters over ASCII process names). -/
def lowerChars (s : List Char) : List Char := s.map Char.toLower

/-- Rust's `str::trim` on character lists: strip leading and trailing
whitespace. -/
def trimChars (s : List Char) : List Char :=
  ((s.dropWhile Char.isWhitespace).reverse.dropWhile Char.isWhitespace).reverse

/-! ## `ProcessInfo` (src/process.rs) -/

/-- `ProcessInfo` from `src/process.rs`: one process at one snapshot
instant.  The formatted start-time field is declared `startTime` in
`src/process.rs` and referred to as `start_time_str` by `src/ui.rs`;
it is the same field, here called `startTime`. -/
structure ProcessInfo where
  pid : ℕ
  name : String
  cpu_usage : ℚ
  memory_usage : ℕ
  parent_pid : Option ℕ
  start_time : ℕ
  status : String
  user : Option String
  nice : ℤ
  startTime : String
deriving DecidableEq

/-! ## Structural filter (src/process.rs, `update_processes`, lines 88–99) -/

/-- The per-record inclusion test of `ProcessManager::update_processes`
for an active structural filter `(mode, value)`:
`"user"` is *case-sensitive* substring containment on the resolved user
name, `"name"` is case-insensitive substring containment, `"pid"` and
`"ppid"` are substring containment on the decimal string of the id
(`parent_pid` defaulting to excluded when absent); any other mode
includes everything. -/
def shouldInclude (mode value : String) (p : ProcessInfo) : Bool :=
  if mode = "user" then
    match p.user with
    | some u => containsSub u.data value.data
    | none => false
  else if mode = "name" then
    containsSub (lowerChars p.name.data) (lowerChars value.data)
  else if mode = "pid" then
    containsSub (toString p.pid).data value.data
  else if mode = "ppid" then
    match p.parent_pid with
    | some pp => containsSub (toString pp).data value.data
    | none => false
  else true

/-! ## Sorting (src/process.rs, `sort_processes`, lines 126–172) -/

/-- `ProcessManager::sort_processes`: stable sort of the registry vector
by the given mode and direction.  Rust's `slice::sort_by_key` /
`sort_by` are stable merge sorts, embedded as `List.mergeSort`;
descending order uses the reversed key comparison
(`std::cmp::Reverse`), `start` compares the formatted time strings
lexicographically, `cpu` uses `partial_cmp` on rationals (total here),
and an unknown mode leaves the list unchanged. -/
def sort_processes (mode : String) (ascending : Bool) (l : List ProcessInfo) :
    List ProcessInfo :=
  if mode = "pid" then
    if ascending then l.mergeSort (fun a b => a.pid ≤ b.pid)
    else l.mergeSort (fun a b => b.pid ≤ a.pid)
  else if mode = "mem" then
    if ascending then l.mergeSort (fun a b => a.memory_usage ≤ b.memory_usage)
    else l.mergeSort (fun a b => b.memory_usage ≤ a.memory_usage)
  else if mode = "ppid" then
    if ascending then
      l.mergeSort (fun a b => a.parent_pid.getD 0 ≤ b.parent_pid.getD 0)
    else l.mergeSort (fun a b => b.parent_pid.getD 0 ≤ a.parent_pid.getD 0)
  else if mode = "start" then
    if ascending then
      l.mergeSort (fun a b => decide (a.startTime ≤ b.startTime))
    else l.mergeSort (fun a b => decide (b.startTime ≤ a.startTime))
  else if mode = "nice" then
    if ascending then l.mergeSort (fun a b => a.nice ≤ b.nice)
    else l.mergeSort (fun a b => b.nice ≤ a.nice)
  else if mode = "cpu" then
    if ascending then l.mergeSort (fun a b => a.cpu_usage ≤ b.cpu_usage)
    else l.mergeSort (fun a b => b.cpu_usage ≤ a.cpu_usage)
  else l

/-- `ProcessManager::set_sort` records the mode and direction and
immediately re-sorts; the externally visible list after `set_sort` is
`sort_processes mode ascending` of the current list. -/
def set_sort (mode : String) (ascending : Bool) (l : List ProcessInfo) :
    List ProcessInfo :=
  sort_processes mode ascending l

/-! ## Priority change (src/process.rs, `set_niceness`, lines 174–200) -/

/-- Error kinds surfaced by the registry's control operations
(`std::io::ErrorKind` values used by `src/process.rs`). -/
inductive IoErrorKind where
  | InvalidInput
  | PermissionDenied
  | OsError
deriving DecidableEq

/-- `ProcessManager::set_niceness(pid, nice)`.  The environment is made
explicit: `euid` is the caller's effective uid (`libc::geteuid()`), and
`osResult` is the return value the `libc::setpriority` call *would*
produce.  The function validates `nice ∈ [-20, 19]` first, then the
privilege requirement for negative nice values, and only then reaches
the OS call; in both failure branches the result is an error that does
not depend on `osResult`, i.e. no OS call is attempted and no process
priority changes. -/
def set_niceness (euid : ℕ) (osResult : ℤ) (_pid : ℕ) (nice : ℤ) :
    Except IoErrorKind Unit :=
  if nice < -20 ∨ nice > 19 then
    .error .InvalidInput
  else if nice < 0 ∧ euid ≠ 0 then
    .error .PermissionDenied
  else if osResult ≠ 0 then
    .error .OsError
  else
    .ok ()

/-! ## Rule evaluator (src/scripting_rules.rs, `evaluate_for`, lines 39–57) -/

/-- The variable bindings `evaluate_for` pushes into the rhai scope for
one record: `cpu` (float percent), `mem` (float megabytes,
`memory_usage / 1024 / 1024`), `pid` (integer), `name` (string). -/
structure RuleScope where
  cpu : ℚ
  mem : ℚ
  pid : ℤ
  name : String

/-- The scope built from a `ProcessInfo` by `evaluate_for`. -/
def mkScope (p : ProcessInfo) : RuleScope :=
  { cpu := p.cpu_usage
  , mem := p.memory_usage / 1024 / 1024
  , pid := p.pid
  , name := p.name }

/-- `RuleEngine::evaluate_for`, parameterized by the embedded rhai
evaluator `ev` (an external crate, modelled as an arbitrary function
from a rule string and a scope to a boolean or an error).  No rule, or
a rule that trims to the empty string, includes every record; otherwise
the rule is evaluated and any evaluation error yields `false` for that
record (errors are swallowed, never propagated). -/
def evaluate_for (ev : String → RuleScope → Except String Bool)
    (active_rule : Option String) (p : ProcessInfo) : Bool :=
  match active_rule with
  | some rule =>
      if trimChars rule.data ≠ [] then
        match ev rule (mkScope p) with
        | .ok v => v
        | .error _ => false
      else true
  | none => true

/-! ## Time-series store (src/graph.rs) -/

/-- `CpuInfo` from `src/graph.rs`: last-seen kernel counters and the
derived usage percentage for one core. -/
structure CpuInfo where
  usage : ℚ
  last_idle : ℕ
  last_total : ℕ
deriving DecidableEq

/-- `CpuInfo::new()`. -/
def CpuInfo.new : CpuInfo := { usage := 0, last_idle := 0, last_total := 0 }

/-- One core's update step inside `GraphData::update_cpu_info`, given
the parsed counters of its `/proc/stat` line (`idle = values[3]`,
`total = values.sum`): deltas against the stored counters (monotone
`u64` counters, truncated subtraction), usage re-computed only when the
total delta is positive, counters always stored back. -/
def CpuInfo.step (c : CpuInfo) (idle total : ℕ) : CpuInfo :=
  let idle_delta := idle - c.last_idle
  let total_delta := total - c.last_total
  { usage :=
      if 0 < total_delta then
        100 * (1 - (idle_delta : ℚ) / (total_delta : ℚ))
      else c.usage
  , last_idle := idle
  , last_total := total }

/-- `GraphData::update_cpu_info`, given the parsed numeric values of
each `/proc/stat` line (`lines.get? (i+1)` skips the aggregate first
line; a line is paired with whether it starts with `"cpu"`).  A core
whose line is missing, is not a cpu line, or has fewer than 4 values is
left unchanged. -/
def update_cpu_info (infos : List CpuInfo) (lines : List (Bool × List ℕ)) :
    List CpuInfo :=
  (List.range infos.length).zip infos |>.map fun iv =>
    match lines.get? (iv.1 + 1) with
    | some (startsCpu, values) =>
        if startsCpu ∧ 4 ≤ values.length then
          iv.2.step (values.getD 3 0) values.sum
        else iv.2
    | none => iv.2

/-- `push_back` followed by the conditional `pop_front` applied to every
history deque in `GraphData::update`: append the sample, then drop the
oldest if the length now exceeds `maxPoints`. -/
def pushTrim {α : Type} (maxPoints : ℕ) (xs : List α) (x : α) : List α :=
  let ys := xs ++ [x]
  if maxPoints < ys.length then ys.tail else ys

/-- One per-process pair of bounded series (cpu samples, memory
samples). -/
abbrev PerProcSeries := List ℚ × List ℕ

/-- `HashMap::entry(pid).or_insert_with(empty)` followed by an in-place
update of the value, on the association-list embedding: modify the
entry with key `pid` if present, else insert a fresh `([], [])` entry
and modify that. -/
def assocUpdate (pid : ℕ) (f : PerProcSeries → PerProcSeries) :
    List (ℕ × PerProcSeries) → List (ℕ × PerProcSeries)
  | [] => [(pid, f ([], []))]
  | (k, v) :: rest =>
      if k = pid then (k, f v) :: rest else (k, v) :: assocUpdate pid f rest

/-- Association-list lookup (`HashMap::get`). -/
def assocLookup {α : Type} (pid : ℕ) : List (ℕ × α) → Option α
  | [] => none
  | (k, v) :: rest => if k = pid then some v else assocLookup pid rest

/-- The per-process history update for one record inside
`GraphData::update`: push the record's cpu and memory samples onto its
series (created empty if absent) and trim each to `maxPoints`. -/
def updateEntry (maxPoints : ℕ) (m : List (ℕ × PerProcSeries))
    (p : ProcessInfo) : List (ℕ × PerProcSeries) :=
  assocUpdate p.pid
    (fun cm => (pushTrim maxPoints cm.1 p.cpu_usage,
                pushTrim maxPoints cm.2 p.memory_usage)) m

/-- `GraphData` from `src/graph.rs` (the real-time fields `last_update`
and `update_interval` gate when `update` runs and are not part of the
retained data). -/
structure GraphData where
  cpu_history : List ℚ
  memory_history : List ℕ
  max_points : ℕ
  cpu_infos : List CpuInfo
  per_process_history : List (ℕ × PerProcSeries)

/-- The body of `GraphData::update` that runs once the update interval
has elapsed, given the current registry snapshot `procs` and the parsed
`/proc/stat` lines: recompute per-core usage, append the aggregate cpu
and memory samples, update every live process's series, drop series of
pids absent from the snapshot, and trim the global histories to
`max_points`. -/
def GraphData.update (g : GraphData) (procs : List ProcessInfo)
    (statLines : List (Bool × List ℕ)) : GraphData :=
  let total_cpu : ℚ := (procs.map (fun p => p.cpu_usage)).sum
  let total_memory : ℕ := (procs.map (fun p => p.memory_usage)).sum / (1024 * 1024)
  let pph := procs.foldl (updateEntry g.max_points) g.per_process_history
  let current_pids := procs.map (fun p => p.pid)
  { cpu_history := pushTrim g.max_points g.cpu_history total_cpu
  , memory_history := pushTrim g.max_points g.memory_history total_memory
  , max_points := g.max_points
  , cpu_infos := update_cpu_info g.cpu_infos statLines
  , per_process_history := pph.filter (fun kv => kv.1 ∈ current_pids) }

/-! ## Timestamp formatting (src/process.rs, `format_timestamp`, lines 236–243)
and the start-time parse done by the exit detector
(src/ui.rs, `App::refresh`, line 180). -/

/-- Two-digit zero-padded rendering of a field value below 100, as
produced by chrono's `%H` / `%M` / `%S` format specifiers. -/
def pad2 (n : ℕ) : List Char :=
  [Nat.digitChar (n / 10), Nat.digitChar (n % 10)]

/-- `format_timestamp` from `src/process.rs`: convert a seconds
timestamp to the local wall clock and render it as `"%H:%M:%S"`.  The
local timezone is made explicit as an offset in seconds, and `valid`
stands for chrono's `LocalResult::Single` branch (out-of-range
timestamps fall back to `"00:00:00"`). -/
def format_timestamp (tzOffset : ℤ) (valid : Bool) (timestamp : ℕ) : String :=
  if valid then
    let localSecs : ℤ := (timestamp : ℤ) + tzOffset
    let hh := ((localSecs / 3600) % 24).toNat
    let mm := ((localSecs / 60) % 60).toNat
    let ss := (localSecs % 60).toNat
    String.mk (pad2 hh ++ ':' :: pad2 mm ++ ':' :: pad2 ss)
  else "00:00:00"

/-- Longest leading run of decimal digits of a character list, together
with the remainder. -/
def takeDigits : List Char → List Char × List Char
  | [] => ([], [])
  | c :: cs =>
      if c.isDigit then
        let p := takeDigits cs
        (c :: p.1, p.2)
      else ([], c :: cs)

/-- Numeric value of a digit run. -/
def digitsVal (ds : List Char) : ℕ :=
  ds.foldl (fun a c => 10 * a + (c.toNat - 48)) 0

/-- Parse a nonempty run of digits as a number, failing on an empty
run. -/
def parseNum (s : List Char) : Option (ℕ × List Char) :=
  match takeDigits s with
  | ([], _) => none
  | (ds, rest) => some (digitsVal ds, rest)

/-- Require the next character to be `c`. -/
def expectChar (c : Char) : List Char → Option (List Char)
  | [] => none
  | x :: xs => if x = c then some xs else none

/-- The shape of chrono's
`NaiveDateTime::parse_from_str(s, "%Y-%m-%d %H:%M:%S")` used by the
exit detector: number, `'-'`, number, `'-'`, number, `' '`, number,
`':'`, number, `':'`, number, end of input.  The model accepts a
superset of the strings chrono accepts (chrono additionally range-checks
each calendar field), so whenever this parser fails, chrono fails too. -/
def parseYmdHms (s : List Char) : Option (ℕ × ℕ × ℕ × ℕ × ℕ × ℕ) :=
  (parseNum s).bind fun ys =>
  (expectChar '-' ys.2).bind fun s1 =>
  (parseNum s1).bind fun mos =>
  (expectChar '-' mos.2).bind fun s2 =>
  (parseNum s2).bind fun ds =>
  (expectChar ' ' ds.2).bind fun s3 =>
  (parseNum s3).bind fun hs =>
  (expectChar ':' hs.2).bind fun s4 =>
  (parseNum s4).bind fun mis =>
  (expectChar ':' mis.2).bind fun s5 =>
  (parseNum s5).bind fun ss =>
  if ss.2 = [] then some (ys.1, mos.1, ds.1, hs.1, mis.1, ss.1) else none

/-- The uptime computation of `App::refresh` for one vanished process:
parse the stored start-time string, convert it to an epoch instant
(`Local.from_local_datetime(..).single()`, made explicit as `toEpoch`,
which may fail), subtract from the exit time, clamp at zero; any
failure along the way yields 0 rather than an error. -/
def computeUptime (toEpoch : ℕ × ℕ × ℕ × ℕ × ℕ × ℕ → Option ℤ)
    (startStr : String) (exitTime : ℤ) : ℕ :=
  match parseYmdHms startStr.data with
  | none => 0
  | some dt =>
      match toEpoch dt with
      | none => 0
      | some start => (max (exitTime - start) 0).toNat

/-! ## Lifecycle (exit) log (src/ui.rs, `App::refresh`, lines 168–202) -/

/-- `ProcessExitLogEntry` from `src/ui.rs`. -/
structure ExitLogEntry where
  pid : ℕ
  name : String
  user : Option String
  start_time : String
  exit_time : ℤ
  uptime_secs : ℕ
deriving DecidableEq

/-- The bounded append of `App::refresh`: drop the oldest entry when the
log already holds 100 (or more) entries, then append the new entry at
the back. -/
def appendExitLog (log : List ExitLogEntry) (e : ExitLogEntry) :
    List ExitLogEntry :=
  let l := if 100 ≤ log.length then log.tail else log
  l ++ [e]

/-- The `ExitLogEntry` synthesized by `App::refresh` for one vanished
process. -/
def mkExitEntry (toEpoch : ℕ × ℕ × ℕ × ℕ × ℕ × ℕ → Option ℤ)
    (p : ProcessInfo) (exitTime : ℤ) : ExitLogEntry :=
  { pid := p.pid
  , name := p.name
  , user := p.user
  , start_time := p.startTime
  , exit_time := exitTime
  , uptime_secs := computeUptime toEpoch p.startTime exitTime }

/-- The exit-detection pass of `App::refresh`: for every pid of the
previous tick's pid set absent from the current pid set, look up the
last known record in the previous snapshot map and append an exit entry
(bounded at 100); pids with no record in the map are skipped. -/
def detectExits (toEpoch : ℕ × ℕ × ℕ × ℕ × ℕ × ℕ → Option ℤ)
    (prevMap : List (ℕ × ProcessInfo)) (prevPids curPids : List ℕ)
    (exitTime : ℤ) (log : List ExitLogEntry) : List ExitLogEntry :=
  (prevPids.filter (fun pid => decide (pid ∉ curPids))).foldl
    (fun lg pid =>
      match assocLookup pid prevMap with
      | some proc => appendExitLog lg (mkExitEntry toEpoch proc exitTime)
      | none => lg) log

/-! ## Specification-side predicate and sample data -/

/-- The structural-filter inclusion predicate *as the specification
words it* (claim C5): `name` **and** `user` are case-insensitive
substring containment, `pid`/`ppid` are substring containment on the
decimal representation.  This definition follows the spec's words and
is compared against `shouldInclude`, which follows the source. -/
def claimShouldInclude (mode value : String) (p : ProcessInfo) : Bool :=
  if mode = "user" then
    match p.user with
    | some u => containsSub (lowerChars u.data) (lowerChars value.data)
    | none => false
  else if mode = "name" then
    containsSub (lowerChars p.name.data) (lowerChars value.data)
  else if mode = "pid" then
    containsSub (toString p.pid).data value.data
  else if mode = "ppid" then
    match p.parent_pid with
    | some pp => containsSub (toString pp).data value.data
    | none => false
  else true

/-- The "length never exceeds `max_points`" invariant of all three
history series of a `GraphData` value. -/
def seriesBounded (g : GraphData) : Prop :=
  g.cpu_history.length ≤ g.max_points ∧
  g.memory_history.length ≤ g.max_points ∧
  ∀ kv ∈ g.per_process_history,
    kv.2.1.length ≤ g.max_points ∧ kv.2.2.length ≤ g.max_points

/-- A concrete process record used to instantiate theorems. -/
def sampleProc : ProcessInfo :=
  { pid := 1234
  , name := "bash"
  , cpu_usage := 12
  , memory_usage := 2048
  , parent_pid := some 1
  , start_time := 100
  , status := "Running"
  , user := some "root"
  , nice := 0
  , startTime := "12:34:56" }

/-- A second concrete process record (a vanished process) used to
instantiate theorems. -/
def sampleProcB : ProcessInfo :=
  { pid := 20
  , name := "b"
  , cpu_usage := 1
  , memory_usage := 4096
  , parent_pid := some 10
  , start_time := 200
  , status := "Sleeping"
  , user := none
  , nice := 5
  , startTime := format_timestamp 0 true 200 }

/-- A concrete exit-log entry used to instantiate theorems. -/
def sampleEntry : ExitLogEntry :=
  { pid := 20
  , name := "b"
  , user := none
  , start_time := "09:00:00"
  , exit_time := 0
  , uptime_secs := 0 }

/-- The "ordered by the active sort key" relation of the specification,
per mode and direction: the relation in which the visible list must be
non-decreasing (ascending) or non-increasing (descending) after
`set_sort(mode, ascending)`. -/
def keyOrder (mode : String) (ascending : Bool) (a b : ProcessInfo) : Prop :=
  if mode = "pid" then
    if ascending then a.pid ≤ b.pid else b.pid ≤ a.pid
  else if mode = "mem" then
    if ascending then a.memory_usage ≤ b.memory_usage
    else b.memory_usage ≤ a.memory_usage
  else if mode = "ppid" then
    if ascending then a.parent_pid.getD 0 ≤ b.parent_pid.getD 0
    else b.parent_pid.getD 0 ≤ a.parent_pid.getD 0
  else if mode = "start" then
    if ascending then a.startTime ≤ b.startTime else b.startTime ≤ a.startTime
  else if mode = "nice" then
    if ascending then a.nice ≤ b.nice else b.nice ≤ a.nice
  else if mode = "cpu" then
    if ascending then a.cpu_usage ≤ b.cpu_usage else b.cpu_usage ≤ a.cpu_usage
  else True

/-! ## Helper lemmas about the bounded push and the association map -/

theorem pushTrim_length_le {α : Type} (N : ℕ) (xs : List α) (x : α)
    (h : xs.length ≤ N) : (pushTrim N xs x).length ≤ N := by
  unfold pushTrim
  by_cases hc : N < (xs ++ [x]).length
  · rw [if_pos hc]
    simp only [List.length_tail, List.length_append, List.length_singleton]
    omega
  · rw [if_neg hc]
    simp only [List.length_append, List.length_singleton] at hc ⊢
    omega

theorem pushTrim_at_capacity {α : Type} (N : ℕ) (xs : List α) (x : α)
    (hlen : xs.length = N) (hN : 0 < N) :
    pushTrim N xs x = xs.tail ++ [x] := by
  unfold pushTrim
  have hc : N < (xs ++ [x]).length := by
    simp only [List.length_append, List.length_singleton]; omega
  rw [if_pos hc]
  cases xs with
  | nil => simp at hlen; omega
  | cons a as => rfl

theorem assocLookup_assocUpdate_self (k : ℕ) (f : PerProcSeries → PerProcSeries)
    (m : List (ℕ × PerProcSeries)) :
    assocLookup k (assocUpdate k f m)
      = some (f ((assocLookup k m).getD ([], []))) := by
  induction m with
  | nil => simp [assocUpdate, assocLookup]
  | cons kv rest ih =>
    obtain ⟨k0, v⟩ := kv
    by_cases h : k0 = k
    · subst h
      simp [assocUpdate, assocLookup]
    · simp [assocUpdate, assocLookup, h, ih]

theorem assocLookup_assocUpdate_ne (k k' : ℕ) (f : PerProcSeries → PerProcSeries)
    (m : List (ℕ × PerProcSeries)) (h : k' ≠ k) :
    assocLookup k' (assocUpdate k f m) = assocLookup k' m := by
  induction m with
  | nil => simp [assocUpdate, assocLookup, Ne.symm h]
  | cons kv rest ih =>
    obtain ⟨k0, v⟩ := kv
    by_cases h0 : k0 = k
    · subst h0
      simp [assocUpdate, assocLookup, Ne.symm h]
    · simp [assocUpdate, assocLookup, h0, ih]

theorem foldl_updateEntry_lookup_not_mem (maxP : ℕ) (procs : List ProcessInfo)
    (m : List (ℕ × PerProcSeries)) (pid : ℕ)
    (h : pid ∉ procs.map (fun p => p.pid)) :
    assocLookup pid (procs.foldl (updateEntry maxP) m) = assocLookup pid m := by
  induction procs generalizing m with
  | nil => rfl
  | cons q rest ih =>
    simp only [List.map_cons, List.mem_cons] at h
    push_neg at h
    simp only [List.foldl_cons]
    rw [ih _ h.2, updateEntry, assocLookup_assocUpdate_ne _ _ _ _ h.1]

theorem foldl_updateEntry_lookup_mem (maxP : ℕ) (procs : List ProcessInfo)
    (m : List (ℕ × PerProcSeries)) (p : ProcessInfo) (hmem : p ∈ procs)
    (hnd : (procs.map (fun q => q.pid)).Nodup) :
    assocLookup p.pid (procs.foldl (updateEntry maxP) m)
      = some (pushTrim maxP ((assocLookup p.pid m).getD ([], [])).1 p.cpu_usage,
              pushTrim maxP ((assocLookup p.pid m).getD ([], [])).2 p.memory_usage) := by
  induction procs generalizing m with
  | nil => cases hmem
  | cons q rest ih =>
    simp only [List.map_cons, List.nodup_cons] at hnd
    rcases List.mem_cons.mp hmem with rfl | hmem'
    · simp only [List.foldl_cons]
      rw [foldl_updateEntry_lookup_not_mem _ _ _ _ hnd.1]
      rw [updateEntry, assocLookup_assocUpdate_self]
    · have hne : p.pid ≠ q.pid := by
        intro he
        apply hnd.1
        rw [← he]
        exact List.mem_map_of_mem _ hmem'
      simp only [List.foldl_cons]
      rw [ih _ hmem' hnd.2, updateEntry, assocLookup_assocUpdate_ne _ _ _ _ hne]

theorem assocUpdate_forall (P : PerProcSeries → Prop) (k : ℕ)
    (f : PerProcSeries → PerProcSeries)
    (hf : ∀ v, P v → P (f v)) (hnil : P (f ([], []))) :
    ∀ m, (∀ kv ∈ m, P kv.2) → ∀ kv ∈ assocUpdate k f m, P kv.2 := by
  intro m
  induction m with
  | nil =>
    intro _ kv hkv
    simp only [assocUpdate, List.mem_singleton] at hkv
    subst hkv
    exact hnil
  | cons kv0 rest ih =>
    obtain ⟨k0, v0⟩ := kv0
    intro hm kv hkv
    by_cases h : k0 = k
    · subst h
      simp only [assocUpdate, eq_self_iff_true, ite_true, List.mem_cons] at hkv
      rcases hkv with h1 | h2
      · subst h1
        exact hf v0 (hm _ (List.mem_cons_self _ _))
      · exact hm kv (List.mem_cons_of_mem _ h2)
    · simp only [assocUpdate, if_neg h, List.mem_cons] at hkv
      rcases hkv with h1 | h2
      · subst h1
        exact hm _ (List.mem_cons_self _ _)
      · exact ih (fun kv h => hm kv (List.mem_cons_of_mem _ h)) kv h2

theorem foldl_updateEntry_bounded (maxP : ℕ) (procs : List ProcessInfo) :
    ∀ m, (∀ kv ∈ m, kv.2.1.length ≤ maxP ∧ kv.2.2.length ≤ maxP) →
    ∀ kv ∈ procs.foldl (updateEntry maxP) m,
      kv.2.1.length ≤ maxP ∧ kv.2.2.length ≤ maxP := by
  induction procs with
  | nil => intro m hm; simpa using hm
  | cons q rest ih =>
    intro m hm
    simp only [List.foldl_cons]
    apply ih
    rw [updateEntry]
    apply assocUpdate_forall
      (fun v => v.1.length ≤ maxP ∧ v.2.length ≤ maxP) _ _ ?_ ?_ m hm
    · intro v hv
      exact ⟨pushTrim_length_le _ _ _ hv.1, pushTrim_length_le _ _ _ hv.2⟩
    · exact ⟨pushTrim_length_le _ _ _ (Nat.zero_le _),
        pushTrim_length_le _ _ _ (Nat.zero_le _)⟩

theorem assocLookup_filter_mem {α : Type} (pid : ℕ) (pids : List ℕ)
    (m : List (ℕ × α)) (hp : pid ∈ pids) :
    assocLookup pid (m.filter fun kv => kv.1 ∈ pids) = assocLookup pid m := by
  induction m with
  | nil => rfl
  | cons kv rest ih =>
    obtain ⟨k, v⟩ := kv
    by_cases hk : k ∈ pids
    · rw [List.filter_cons]
      simp [hk, assocLookup, ih]
    · have hne : k ≠ pid := fun he => hk (he ▸ hp)
      rw [List.filter_cons]
      simp [hk, assocLookup, hne, ih]

theorem assocLookup_filter_not_mem {α : Type} (pid : ℕ) (pids : List ℕ)
    (m : List (ℕ × α)) (hp : pid ∉ pids) :
    assocLookup pid (m.filter fun kv => kv.1 ∈ pids) = none := by
  induction m with
  | nil => rfl
  | cons kv rest ih =>
    obtain ⟨k, v⟩ := kv
    by_cases hk : k ∈ pids
    · have hne : k ≠ pid := fun he => hp (he ▸ hk)
      rw [List.filter_cons]
      simp [hk, assocLookup, hne, ih]
    · rw [List.filter_cons]
      simp [hk, ih]

theorem mergeSort_rel_pairwise {α : Type} (r : α → α → Prop) [DecidableRel r]
    (htrans : ∀ a b c, r a b → r b c → r a c)
    (htotal : ∀ a b, r a b ∨ r b a) (l : List α) :
    (l.mergeSort (fun a b => decide (r a b))).Pairwise r := by
  have h := @List.sorted_mergeSort _ (fun a b => decide (r a b))
    (fun a b c hab hbc =>
      decide_eq_true
        (htrans a b c (of_decide_eq_true hab) (of_decide_eq_true hbc)))
    (fun a b => by
      rcases htotal a b with h | h
      · simp [h]
      · simp [h]) l
  exact h.imp (fun hab => of_decide_eq_true hab)

theorem mergeSort_rel_idem {α : Type} (r : α → α → Prop) [DecidableRel r]
    (htrans : ∀ a b c, r a b → r b c → r a c)
    (htotal : ∀ a b, r a b ∨ r b a) (l : List α) :
    (l.mergeSort (fun a b => decide (r a b))).mergeSort
        (fun a b => decide (r a b))
      = l.mergeSort (fun a b => decide (r a b)) := by
  apply List.mergeSort_of_sorted
  exact (mergeSort_rel_pairwise r htrans htotal l).imp
    (fun h => decide_eq_true h)

/-! ## Claim theorems -/

/-- Claim C4: for every pid and every nice value outside `[-20, 19]`,
`set_niceness` returns an `InvalidInput` error, and for every negative
in-range nice value requested with effective uid ≠ 0 it returns
`PermissionDenied`; in both cases the result is this error for *every*
possible OS-call result, i.e. the OS call is never attempted and no
process priority is changed. -/
theorem c4_set_niceness_errors :
    ∀ (euid : ℕ) (osResult : ℤ) (pid : ℕ) (nice : ℤ),
      ((nice < -20 ∨ 19 < nice) →
        set_niceness euid osResult pid nice = .error .InvalidInput) ∧
      (-20 ≤ nice → nice < 0 → euid ≠ 0 →
        set_niceness euid osResult pid nice = .error .PermissionDenied) := by
  intro euid osResult pid nice
  constructor
  · intro h
    have h' : nice < -20 ∨ nice > 19 := by omega
    unfold set_niceness
    rw [if_pos h']
  · intro h1 h2 h3
    have h' : ¬(nice < -20 ∨ nice > 19) := by omega
    unfold set_niceness
    rw [if_neg h', if_pos (show nice < 0 ∧ euid ≠ 0 from ⟨h2, h3⟩)]

/-- Witness for C4: `set_niceness(pid, 25)` fails with `InvalidInput`
and `set_niceness(pid, -5)` as uid 1000 fails with
`PermissionDenied`. -/
theorem c4_set_niceness_errors_witness :
    set_niceness 1000 0 1 25 = .error .InvalidInput ∧
    set_niceness 1000 0 1 (-5) = .error .PermissionDenied :=
  ⟨(c4_set_niceness_errors 1000 0 1 25).1 (by norm_num),
   (c4_set_niceness_errors 1000 0 1 (-5)).2 (by norm_num) (by norm_num)
     (by norm_num)⟩

/-- Claim C3: `evaluate_for` returns `true` for every record when no
rule is set or the rule trims to the empty string; when the embedded
expression evaluator reports an error for a record — as it does for a
malformed expression such as `"cpu >"` — `evaluate_for` returns `false`
for that record instead of propagating the error, and being a total
function it cannot abort the evaluation of the remaining records. -/
theorem c3_evaluate_for_error_handling :
    ∀ (ev : String → RuleScope → Except String Bool) (p : ProcessInfo)
      (rule err : String),
      evaluate_for ev none p = true ∧
      (trimChars rule.data = [] → evaluate_for ev (some rule) p = true) ∧
      (trimChars rule.data ≠ [] → ev rule (mkScope p) = .error err →
        evaluate_for ev (some rule) p = false) := by
  intro ev p rule err
  refine ⟨rfl, fun h => ?_, fun h he => ?_⟩
  · simp [evaluate_for, h]
  · simp [evaluate_for, h, he]

/-- Witness for C3: with an evaluator that rejects every expression
(as rhai rejects `"cpu >"`), the unset rule and the empty rule include
the sample record while the rule `"cpu >"` excludes it without an
error. -/
theorem c3_evaluate_for_error_handling_witness :
    evaluate_for (fun _ _ => .error "parse error") none sampleProc = true ∧
    evaluate_for (fun _ _ => .error "parse error") (some "") sampleProc
      = true ∧
    evaluate_for (fun _ _ => .error "parse error") (some "cpu >") sampleProc
      = false :=
  ⟨(c3_evaluate_for_error_handling (fun _ _ => .error "parse error")
      sampleProc "" "parse error").1,
   (c3_evaluate_for_error_handling (fun _ _ => .error "parse error")
      sampleProc "" "parse error").2.1 (by decide),
   (c3_evaluate_for_error_handling (fun _ _ => .error "parse error")
      sampleProc "cpu >" "parse error").2.2 (by decide) rfl⟩

/-- Claim C7: per-core usage is recomputed from kernel-counter deltas
as `100 * (1 − Δidle/Δtotal)` whenever the total delta is positive, a
zero total delta leaves the stored usage unchanged, and the concrete
reads `(idle=100, total=200)` then `(idle=150, total=300)` yield a
usage of 50% at the second tick. -/
theorem c7_cpu_usage_from_deltas :
    (∀ (c : CpuInfo) (idle total : ℕ), 0 < total - c.last_total →
        (c.step idle total).usage
          = 100 * (1 - ((idle - c.last_idle : ℕ) : ℚ)
              / ((total - c.last_total : ℕ) : ℚ))) ∧
    (∀ (c : CpuInfo) (idle : ℕ), (c.step idle c.last_total).usage = c.usage) ∧
    ((CpuInfo.new.step 100 200).step 150 300).usage = 50 := by
  refine ⟨fun c idle total h => ?_, fun c idle => ?_, ?_⟩
  · simp [CpuInfo.step, h]
  · simp [CpuInfo.step]
  · norm_num [CpuInfo.step, CpuInfo.new]

/-- Witness for C7: concrete instantiations of the delta formula and of
the unchanged-usage case. -/
theorem c7_cpu_usage_from_deltas_witness :
    ((⟨0, 3, 5⟩ : CpuInfo).step 9 8).usage
      = 100 * (1 - ((9 - 3 : ℕ) : ℚ) / ((8 - 5 : ℕ) : ℚ)) ∧
    ((⟨7, 3, 5⟩ : CpuInfo).step 9 5).usage = 7 :=
  ⟨c7_cpu_usage_from_deltas.1 ⟨0, 3, 5⟩ 9 8 (by norm_num),
   c7_cpu_usage_from_deltas.2.1 ⟨7, 3, 5⟩ 9⟩

/-- Claim C8: the exit log is a bounded FIFO of capacity 100: one
append preserves length ≤ 100, appending to a log holding exactly 100
entries drops the oldest entry before appending the newest, and every
entry of the result is an (unmodified) entry of the old log or the
newly appended one. -/
theorem c8_exit_log_bounded_fifo :
    ∀ (log : List ExitLogEntry) (e : ExitLogEntry),
      (log.length ≤ 100 → (appendExitLog log e).length ≤ 100) ∧
      (log.length = 100 → appendExitLog log e = log.tail ++ [e]) ∧
      (∀ x ∈ appendExitLog log e, x ∈ log ∨ x = e) := by
  intro log e
  refine ⟨fun h => ?_, fun h => ?_, fun x hx => ?_⟩
  · simp only [appendExitLog]
    by_cases hc : 100 ≤ log.length
    · simp only [if_pos hc, List.length_append, List.length_tail,
        List.length_singleton]
      omega
    · simp only [if_neg hc, List.length_append, List.length_singleton]
      omega
  · simp only [appendExitLog]
    rw [if_pos (by omega)]
  · simp only [appendExitLog] at hx
    by_cases hc : 100 ≤ log.length
    · rw [if_pos hc] at hx
      rcases List.mem_append.mp hx with h1 | h2
      · exact Or.inl (List.mem_of_mem_tail h1)
      · exact Or.inr (List.mem_singleton.mp h2)
    · rw [if_neg hc] at hx
      rcases List.mem_append.mp hx with h1 | h2
      · exact Or.inl h1
      · exact Or.inr (List.mem_singleton.mp h2)

/-- Witness for C8: appending to a log of exactly 100 entries keeps the
length within 100 and drops the oldest entry. -/
theorem c8_exit_log_bounded_fifo_witness :
    (appendExitLog (List.replicate 100 sampleEntry) sampleEntry).length
      ≤ 100 ∧
    appendExitLog (List.replicate 100 sampleEntry) sampleEntry
      = (List.replicate 100 sampleEntry).tail ++ [sampleEntry] :=
  ⟨(c8_exit_log_bounded_fifo (List.replicate 100 sampleEntry)
      sampleEntry).1 (by simp),
   (c8_exit_log_bounded_fifo (List.replicate 100 sampleEntry)
      sampleEntry).2.1 (by simp)⟩

/-- Claim C9: after a history-update tick, any pid absent from the
current registry snapshot has no per-process series left: its whole
entry is dropped by the store's garbage-collection step. -/
theorem c9_per_process_history_gc :
    ∀ (g : GraphData) (procs : List ProcessInfo)
      (statLines : List (Bool × List ℕ)) (pid : ℕ),
      pid ∉ procs.map (fun p => p.pid) →
      assocLookup pid (g.update procs statLines).per_process_history = none := by
  intro g procs statLines pid h
  exact assocLookup_filter_not_mem _ _ _ h

/-- Witness for C9: a store holding a series for pid 999 loses it on an
update whose snapshot does not contain pid 999. -/
theorem c9_per_process_history_gc_witness :
    assocLookup 999
      ((⟨[], [], 3, [], [(999, ([1], [2]))]⟩ : GraphData).update
        [sampleProc] []).per_process_history = none :=
  c9_per_process_history_gc _ [sampleProc] [] 999 (by decide)

/-- Claim C1: one history-update tick preserves the length bound
`≤ max_points` on the global cpu series, the global memory series and
every per-process series; and once a series is at capacity, the sample
evicted by the tick is the oldest one (the front), the new sample being
appended at the back — FIFO eviction, so insertion order equals
chronological order. -/
theorem c1_history_bounded_fifo :
    ∀ (g : GraphData) (procs : List ProcessInfo)
      (statLines : List (Bool × List ℕ)),
      seriesBounded g →
      seriesBounded (g.update procs statLines) ∧
      (0 < g.max_points → g.cpu_history.length = g.max_points →
        (g.update procs statLines).cpu_history
          = g.cpu_history.tail ++ [(procs.map (fun p => p.cpu_usage)).sum]) ∧
      (0 < g.max_points → g.memory_history.length = g.max_points →
        (g.update procs statLines).memory_history
          = g.memory_history.tail
              ++ [(procs.map (fun p => p.memory_usage)).sum / (1024 * 1024)]) ∧
      (∀ p ∈ procs, (procs.map (fun q => q.pid)).Nodup →
        ∀ c m, assocLookup p.pid g.per_process_history = some (c, m) →
          0 < g.max_points → c.length = g.max_points →
          m.length = g.max_points →
          assocLookup p.pid (g.update procs statLines).per_process_history
            = some (c.tail ++ [p.cpu_usage], m.tail ++ [p.memory_usage])) := by
  intro g procs statLines hb
  obtain ⟨h1, h2, h3⟩ := hb
  refine ⟨⟨?_, ?_, ?_⟩, fun hN hlen => ?_, fun hN hlen => ?_, ?_⟩
  · exact pushTrim_length_le _ _ _ h1
  · exact pushTrim_length_le _ _ _ h2
  · intro kv hkv
    exact foldl_updateEntry_bounded _ _ _ h3 kv (List.mem_of_mem_filter hkv)
  · exact pushTrim_at_capacity _ _ _ hlen hN
  · exact pushTrim_at_capacity _ _ _ hlen hN
  · intro p hp hnd c m hlk hN hc hm
    have hmem : p.pid ∈ procs.map (fun q => q.pid) :=
      List.mem_map_of_mem _ hp
    show assocLookup p.pid
        ((procs.foldl (updateEntry g.max_points) g.per_process_history).filter
          (fun kv => kv.1 ∈ procs.map (fun q => q.pid))) = _
    rw [assocLookup_filter_mem _ _ _ hmem,
      foldl_updateEntry_lookup_mem _ _ _ _ hp hnd, hlk]
    simp only [Option.getD_some]
    rw [pushTrim_at_capacity _ _ _ hc hN, pushTrim_at_capacity _ _ _ hm hN]

/-- Witness for C1: a store with `max_points = 2` and all series at
capacity, updated with a one-process snapshot, keeps every length at 2
and evicts exactly the oldest sample of each series. -/
theorem c1_history_bounded_fifo_witness :
    seriesBounded ((⟨[1, 2], [3, 4], 2, [], [(1234, ([5, 6], [7, 8]))]⟩ :
        GraphData).update [sampleProc] []) ∧
    ((⟨[1, 2], [3, 4], 2, [], [(1234, ([5, 6], [7, 8]))]⟩ :
        GraphData).update [sampleProc] []).cpu_history
      = ([1, 2] : List ℚ).tail
          ++ [([sampleProc].map (fun p => p.cpu_usage)).sum] ∧
    assocLookup 1234
      ((⟨[1, 2], [3, 4], 2, [], [(1234, ([5, 6], [7, 8]))]⟩ :
        GraphData).update [sampleProc] []).per_process_history
      = some (([5, 6] : List ℚ).tail ++ [sampleProc.cpu_usage],
              ([7, 8] : List ℕ).tail ++ [sampleProc.memory_usage]) := by
  have h := c1_history_bounded_fifo
    ⟨[1, 2], [3, 4], 2, [], [(1234, ([5, 6], [7, 8]))]⟩ [sampleProc] []
    (by refine ⟨by decide, by decide, ?_⟩
        intro kv hkv
        simp only [List.mem_singleton] at hkv
        subst hkv
        exact ⟨by decide, by decide⟩)
  exact ⟨h.1, h.2.1 (by decide) (by decide),
    h.2.2.2 sampleProc (List.mem_singleton.mpr rfl) (by decide)
      [5, 6] [7, 8] rfl (by decide) (by decide) (by decide)⟩

/-- Claim C6: for every process list and every sort key among
pid, cpu, mem, ppid, nice and start, applying `set_sort(key, ascending)`
yields a list that is non-decreasing (ascending) or non-increasing
(descending) in that key, and applying the same sort a second time
yields an identical ordering (idempotence of the stable sort). -/
theorem c6_sort_sorted_idem :
    ∀ mode ∈ (["pid", "cpu", "mem", "ppid", "nice", "start"] : List String),
    ∀ (ascending : Bool) (l : List ProcessInfo),
      (set_sort mode ascending l).Pairwise (keyOrder mode ascending) ∧
      set_sort mode ascending (set_sort mode ascending l)
        = set_sort mode ascending l := by
  intro mode hm ascending l
  fin_cases hm
  · cases ascending with
    | true =>
      constructor
      · show (l.mergeSort fun a b => decide (a.pid ≤ b.pid)).Pairwise
          (keyOrder "pid" true)
        exact List.Pairwise.imp (fun h => by simpa [keyOrder] using h)
          (mergeSort_rel_pairwise (fun a b => a.pid ≤ b.pid)
            (fun a b c => Nat.le_trans) (fun a b => Nat.le_total _ _) l)
      · show (l.mergeSort fun a b => decide (a.pid ≤ b.pid)).mergeSort
            (fun a b => decide (a.pid ≤ b.pid))
          = l.mergeSort fun a b => decide (a.pid ≤ b.pid)
        exact mergeSort_rel_idem (fun a b => a.pid ≤ b.pid)
          (fun a b c => Nat.le_trans) (fun a b => Nat.le_total _ _) l
    | false =>
      constructor
      · show (l.mergeSort fun a b => decide (b.pid ≤ a.pid)).Pairwise
          (keyOrder "pid" false)
        exact List.Pairwise.imp (fun h => by simpa [keyOrder] using h)
          (mergeSort_rel_pairwise (fun a b => b.pid ≤ a.pid)
            (fun a b c hab hbc => Nat.le_trans hbc hab) (fun a b => Nat.le_total _ _) l)
      · show (l.mergeSort fun a b => decide (b.pid ≤ a.pid)).mergeSort
            (fun a b => decide (b.pid ≤ a.pid))
          = l.mergeSort fun a b => decide (b.pid ≤ a.pid)
        exact mergeSort_rel_idem (fun a b => b.pid ≤ a.pid)
          (fun a b c hab hbc => Nat.le_trans hbc hab) (fun a b => Nat.le_total _ _) l
  · cases ascending with
    | true =>
      constructor
      · show (l.mergeSort fun a b => decide (a.cpu_usage ≤ b.cpu_usage)).Pairwise
          (keyOrder "cpu" true)
        exact List.Pairwise.imp (fun h => by simpa [keyOrder] using h)
          (mergeSort_rel_pairwise (fun a b => a.cpu_usage ≤ b.cpu_usage)
            (fun a b c => le_trans) (fun a b => le_total _ _) l)
      · show (l.mergeSort fun a b => decide (a.cpu_usage ≤ b.cpu_usage)).mergeSort
            (fun a b => decide (a.cpu_usage ≤ b.cpu_usage))
          = l.mergeSort fun a b => decide (a.cpu_usage ≤ b.cpu_usage)
        exact mergeSort_rel_idem (fun a b => a.cpu_usage ≤ b.cpu_usage)
          (fun a b c => le_trans) (fun a b => le_total _ _) l
    | false =>
      constructor
      · show (l.mergeSort fun a b => decide (b.cpu_usage ≤ a.cpu_usage)).Pairwise
          (keyOrder "cpu" false)
        exact List.Pairwise.imp (fun h => by simpa [keyOrder] using h)
          (mergeSort_rel_pairwise (fun a b => b.cpu_usage ≤ a.cpu_usage)
            (fun a b c hab hbc => le_trans hbc hab) (fun a b => le_total _ _) l)
      · show (l.mergeSort fun a b => decide (b.cpu_usage ≤ a.cpu_usage)).mergeSort
            (fun a b => decide (b.cpu_usage ≤ a.cpu_usage))
          = l.mergeSort fun a b => decide (b.cpu_usage ≤ a.cpu_usage)
        exact mergeSort_rel_idem (fun a b => b.cpu_usage ≤ a.cpu_usage)
          (fun a b c hab hbc => le_trans hbc hab) (fun a b => le_total _ _) l
  · cases ascending with
    | true =>
      constructor
      · show (l.mergeSort fun a b => decide (a.memory_usage ≤ b.memory_usage)).Pairwise
          (keyOrder "mem" true)
        exact List.Pairwise.imp (fun h => by simpa [keyOrder] using h)
          (mergeSort_rel_pairwise (fun a b => a.memory_usage ≤ b.memory_usage)
            (fun a b c => Nat.le_trans) (fun a b => Nat.le_total _ _) l)
      · show (l.mergeSort fun a b => decide (a.memory_usage ≤ b.memory_usage)).mergeSort
            (fun a b => decide (a.memory_usage ≤ b.memory_usage))
          = l.mergeSort fun a b => decide (a.memory_usage ≤ b.memory_usage)
        exact mergeSort_rel_idem (fun a b => a.memory_usage ≤ b.memory_usage)
          (fun a b c => Nat.le_trans) (fun a b => Nat.le_total _ _) l
    | false =>
      constructor
      · show (l.mergeSort fun a b => decide (b.memory_usage ≤ a.memory_usage)).Pairwise
          (keyOrder "mem" false)
        exact List.Pairwise.imp (fun h => by simpa [keyOrder] using h)
          (mergeSort_rel_pairwise (fun a b => b.memory_usage ≤ a.memory_usage)
            (fun a b c hab hbc => Nat.le_trans hbc hab) (fun a b => Nat.le_total _ _) l)
      · show (l.mergeSort fun a b => decide (b.memory_usage ≤ a.memory_usage)).mergeSort
            (fun a b => decide (b.memory_usage ≤ a.memory_usage))
          = l.mergeSort fun a b => decide (b.memory_usage ≤ a.memory_usage)
        exact mergeSort_rel_idem (fun a b => b.memory_usage ≤ a.memory_usage)
          (fun a b c hab hbc => Nat.le_trans hbc hab) (fun a b => Nat.le_total _ _) l
  · cases ascending with
    | true =>
      constructor
      · show (l.mergeSort fun a b => decide (a.parent_pid.getD 0 ≤ b.parent_pid.getD 0)).Pairwise
          (keyOrder "ppid" true)
        exact List.Pairwise.imp (fun h => by simpa [keyOrder] using h)
          (mergeSort_rel_pairwise (fun a b => a.parent_pid.getD 0 ≤ b.parent_pid.getD 0)
            (fun a b c => Nat.le_trans) (fun a b => Nat.le_total _ _) l)
      · show (l.mergeSort fun a b => decide (a.parent_pid.getD 0 ≤ b.parent_pid.getD 0)).mergeSort
            (fun a b => decide (a.parent_pid.getD 0 ≤ b.parent_pid.getD 0))
          = l.mergeSort fun a b => decide (a.parent_pid.getD 0 ≤ b.parent_pid.getD 0)
        exact mergeSort_rel_idem (fun a b => a.parent_pid.getD 0 ≤ b.parent_pid.getD 0)
          (fun a b c => Nat.le_trans) (fun a b => Nat.le_total _ _) l
    | false =>
      constructor
      · show (l.mergeSort fun a b => decide (b.parent_pid.getD 0 ≤ a.parent_pid.getD 0)).Pairwise
          (keyOrder "ppid" false)
        exact List.Pairwise.imp (fun h => by simpa [keyOrder] using h)
          (mergeSort_rel_pairwise (fun a b => b.parent_pid.getD 0 ≤ a.parent_pid.getD 0)
            (fun a b c hab hbc => Nat.le_trans hbc hab) (fun a b => Nat.le_total _ _) l)
      · show (l.mergeSort fun a b => decide (b.parent_pid.getD 0 ≤ a.parent_pid.getD 0)).mergeSort
            (fun a b => decide (b.parent_pid.getD 0 ≤ a.parent_pid.getD 0))
          = l.mergeSort fun a b => decide (b.parent_pid.getD 0 ≤ a.parent_pid.getD 0)
        exact mergeSort_rel_idem (fun a b => b.parent_pid.getD 0 ≤ a.parent_pid.getD 0)
          (fun a b c hab hbc => Nat.le_trans hbc hab) (fun a b => Nat.le_total _ _) l
  · cases ascending with
    | true =>
      constructor
      · show (l.mergeSort fun a b => decide (a.nice ≤ b.nice)).Pairwise
          (keyOrder "nice" true)
        exact List.Pairwise.imp (fun h => by simpa [keyOrder] using h)
          (mergeSort_rel_pairwise (fun a b => a.nice ≤ b.nice)
            (fun a b c => le_trans) (fun a b => le_total _ _) l)
      · show (l.mergeSort fun a b => decide (a.nice ≤ b.nice)).mergeSort
            (fun a b => decide (a.nice ≤ b.nice))
          = l.mergeSort fun a b => decide (a.nice ≤ b.nice)
        exact mergeSort_rel_idem (fun a b => a.nice ≤ b.nice)
          (fun a b c => le_trans) (fun a b => le_total _ _) l
    | false =>
      constructor
      · show (l.mergeSort fun a b => decide (b.nice ≤ a.nice)).Pairwise
          (keyOrder "nice" false)
        exact List.Pairwise.imp (fun h => by simpa [keyOrder] using h)
          (mergeSort_rel_pairwise (fun a b => b.nice ≤ a.nice)
            (fun a b c hab hbc => le_trans hbc hab) (fun a b => le_total _ _) l)
      · show (l.mergeSort fun a b => decide (b.nice ≤ a.nice)).mergeSort
            (fun a b => decide (b.nice ≤ a.nice))
          = l.mergeSort fun a b => decide (b.nice ≤ a.nice)
        exact mergeSort_rel_idem (fun a b => b.nice ≤ a.nice)
          (fun a b c hab hbc => le_trans hbc hab) (fun a b => le_total _ _) l
  · cases ascending with
    | true =>
      constructor
      · show (l.mergeSort fun a b => decide (a.startTime ≤ b.startTime)).Pairwise
          (keyOrder "start" true)
        exact List.Pairwise.imp (fun h => by simpa [keyOrder] using h)
          (mergeSort_rel_pairwise (fun a b => a.startTime ≤ b.startTime)
            (fun a b c => le_trans) (fun a b => le_total _ _) l)
      · show (l.mergeSort fun a b => decide (a.startTime ≤ b.startTime)).mergeSort
            (fun a b => decide (a.startTime ≤ b.startTime))
          = l.mergeSort fun a b => decide (a.startTime ≤ b.startTime)
        exact mergeSort_rel_idem (fun a b => a.startTime ≤ b.startTime)
          (fun a b c => le_trans) (fun a b => le_total _ _) l
    | false =>
      constructor
      · show (l.mergeSort fun a b => decide (b.startTime ≤ a.startTime)).Pairwise
          (keyOrder "start" false)
        exact List.Pairwise.imp (fun h => by simpa [keyOrder] using h)
          (mergeSort_rel_pairwise (fun a b => b.startTime ≤ a.startTime)
            (fun a b c hab hbc => le_trans hbc hab) (fun a b => le_total _ _) l)
      · show (l.mergeSort fun a b => decide (b.startTime ≤ a.startTime)).mergeSort
            (fun a b => decide (b.startTime ≤ a.startTime))
          = l.mergeSort fun a b => decide (b.startTime ≤ a.startTime)
        exact mergeSort_rel_idem (fun a b => b.startTime ≤ a.startTime)
          (fun a b c hab hbc => le_trans hbc hab) (fun a b => le_total _ _) l

/-- Witness for C6: concrete instantiation at sort key `pid`,
ascending, on a two-record registry. -/
theorem c6_sort_sorted_idem_witness :
    (set_sort "pid" true [sampleProc, sampleProcB]).Pairwise
      (keyOrder "pid" true) ∧
    set_sort "pid" true (set_sort "pid" true [sampleProc, sampleProcB])
      = set_sort "pid" true [sampleProc, sampleProcB] :=
  c6_sort_sorted_idem "pid" (by decide) true [sampleProc, sampleProcB]

theorem detectExits_no_evict (toEpoch : ℕ × ℕ × ℕ × ℕ × ℕ × ℕ → Option ℤ)
    (prevMap : List (ℕ × ProcessInfo)) (exitTime : ℤ) :
    ∀ (pids : List ℕ) (log : List ExitLogEntry),
      log.length + pids.length ≤ 100 →
      pids.foldl (fun lg pid =>
          match assocLookup pid prevMap with
          | some proc => appendExitLog lg (mkExitEntry toEpoch proc exitTime)
          | none => lg) log
        = log ++ pids.filterMap (fun pid =>
            (assocLookup pid prevMap).map
              (fun proc => mkExitEntry toEpoch proc exitTime)) := by
  intro pids
  induction pids with
  | nil => intro log _; simp
  | cons pid rest ih =>
    intro log hlen
    simp only [List.foldl_cons, List.filterMap_cons]
    cases hlk : assocLookup pid prevMap with
    | none =>
      simp only [hlk, Option.map_none', List.length_cons] at hlen ⊢
      exact ih log (by omega)
    | some proc =>
      have hlog : ¬ 100 ≤ log.length := by
        simp only [List.length_cons] at hlen; omega
      have happ : appendExitLog log (mkExitEntry toEpoch proc exitTime)
          = log ++ [mkExitEntry toEpoch proc exitTime] := by
        simp only [appendExitLog, if_neg hlog]
      simp only [hlk, Option.map_some']
      rw [happ, ih (log ++ [mkExitEntry toEpoch proc exitTime])
        (by
          have h2 : log.length + (rest.length + 1) ≤ 100 := by
            simpa using hlen
          simp only [List.length_append, List.length_singleton]
          omega)]
      simp

theorem length_filterMap_total {α β : Type} (f : α → Option β) :
    ∀ l : List α, (∀ a ∈ l, (f a).isSome) →
      (l.filterMap f).length = l.length := by
  intro l
  induction l with
  | nil => intro _; rfl
  | cons a rest ih =>
    intro h
    rw [List.filterMap_cons]
    cases hf : f a with
    | none =>
      exfalso
      have := h a (List.mem_cons_self _ _)
      rw [hf] at this
      simp at this
    | some b =>
      simp only [List.length_cons]
      rw [ih (fun x hx => h x (List.mem_cons_of_mem _ hx))]

theorem filter_not_mem_card (prevPids curPids : List ℕ)
    (hnd : prevPids.Nodup) :
    (prevPids.filter (fun pid => decide (pid ∉ curPids))).length
      = (prevPids.toFinset \ curPids.toFinset).card := by
  have h1 : (prevPids.filter (fun pid => decide (pid ∉ curPids))).toFinset
      = prevPids.toFinset \ curPids.toFinset := by
    ext x
    simp [List.mem_filter, Finset.mem_sdiff]
  rw [← h1, List.card_toFinset, List.Nodup.dedup (hnd.filter _)]

/-- Claim C2: under the invariant of `App::refresh` that every pid of
the previous tick's pid set has a record in the previous snapshot map,
and provided the capacity bound is not hit, one exit-detection pass
appends exactly `|P_prev − P_cur|` new entries to the exit log — one
per vanished pid — each with a non-negative uptime; an entry whose
stored start-time string fails to parse is still appended, with
`uptime_secs = 0`. -/
theorem c2_detect_exits_appends_diff :
    ∀ (toEpoch : ℕ × ℕ × ℕ × ℕ × ℕ × ℕ → Option ℤ)
      (prevMap : List (ℕ × ProcessInfo)) (prevPids curPids : List ℕ)
      (exitTime : ℤ) (log : List ExitLogEntry),
      prevPids.Nodup →
      (∀ pid ∈ prevPids, (assocLookup pid prevMap).isSome) →
      log.length
          + (prevPids.filter (fun pid => decide (pid ∉ curPids))).length
        ≤ 100 →
      ∃ newEntries : List ExitLogEntry,
        detectExits toEpoch prevMap prevPids curPids exitTime log
          = log ++ newEntries ∧
        newEntries.length = (prevPids.toFinset \ curPids.toFinset).card ∧
        (∀ e ∈ newEntries, 0 ≤ e.uptime_secs) ∧
        (∀ e ∈ newEntries, parseYmdHms e.start_time.data = none →
          e.uptime_secs = 0) := by
  intro toEpoch prevMap prevPids curPids exitTime log hnd hlk hlen
  refine ⟨(prevPids.filter (fun pid => decide (pid ∉ curPids))).filterMap
      (fun pid => (assocLookup pid prevMap).map
        (fun proc => mkExitEntry toEpoch proc exitTime)), ?_, ?_, ?_, ?_⟩
  · exact detectExits_no_evict toEpoch prevMap exitTime _ log hlen
  · rw [length_filterMap_total _ _ (fun pid hp => by
      have h := hlk pid (List.mem_of_mem_filter hp)
      rcases Option.isSome_iff_exists.mp h with ⟨proc, hproc⟩
      simp [hproc])]
    exact filter_not_mem_card _ _ hnd
  · intro e _
    exact Nat.zero_le _
  · intro e he hparse
    rcases List.mem_filterMap.mp he with ⟨pid, _, hmap⟩
    rcases Option.map_eq_some'.mp hmap with ⟨proc, _, rfl⟩
    show computeUptime toEpoch proc.startTime exitTime = 0
    unfold computeUptime
    rw [show parseYmdHms proc.startTime.data = none from hparse]

/-- Witness for C2: two previous pids, one of which vanished; the pass
appends exactly one entry. -/
theorem c2_detect_exits_appends_diff_witness :
    ∃ newEntries : List ExitLogEntry,
      detectExits (fun _ => none) [(1234, sampleProc), (20, sampleProcB)]
          [1234, 20] [1234] 5 []
        = [] ++ newEntries ∧
      newEntries.length
        = (([1234, 20] : List ℕ).toFinset
            \ ([1234] : List ℕ).toFinset).card ∧
      (∀ e ∈ newEntries, 0 ≤ e.uptime_secs) ∧
      (∀ e ∈ newEntries, parseYmdHms e.start_time.data = none →
        e.uptime_secs = 0) :=
  c2_detect_exits_appends_diff (fun _ => none)
    [(1234, sampleProc), (20, sampleProcB)] [1234, 20] [1234] 5 []
    (by decide) (by decide) (by decide)

theorem takeDigits_append :
    ∀ s : List Char, (takeDigits s).1 ++ (takeDigits s).2 = s := by
  intro s
  induction s with
  | nil => rfl
  | cons c cs ih =>
    by_cases h : c.isDigit
    · simp only [takeDigits, if_pos h, List.cons_append]
      rw [ih]
    · simp [takeDigits, h]

theorem takeDigits_snd_not_digit :
    ∀ (s : List Char) (c : Char) (cs : List Char),
      (takeDigits s).2 = c :: cs → c.isDigit = false := by
  intro s
  induction s with
  | nil => intro c cs h; simp [takeDigits] at h
  | cons a as ih =>
    intro c cs h
    by_cases hd : a.isDigit
    · simp only [takeDigits, if_pos hd] at h
      exact ih c cs h
    · simp only [takeDigits, if_neg hd, List.cons.injEq] at h
      rw [← h.1]
      exact Bool.eq_false_iff.mpr hd

theorem expectChar_dash_takeDigits (s : List Char) (h : '-' ∉ s) :
    expectChar '-' (takeDigits s).2 = none := by
  cases hr : (takeDigits s).2 with
  | nil => rfl
  | cons c cs =>
    have hc : ¬ (c = '-') := by
      intro he
      apply h
      have happ := takeDigits_append s
      rw [hr] at happ
      rw [← happ, he]
      simp
    simp [expectChar, hc]

theorem parseYmdHms_none_of_no_dash (s : List Char) (h : '-' ∉ s) :
    parseYmdHms s = none := by
  unfold parseYmdHms
  cases hpn : parseNum s with
  | none => rfl
  | some vr =>
    have hrest : vr.2 = (takeDigits s).2 := by
      unfold parseNum at hpn
      rcases htd : takeDigits s with ⟨ds, r⟩
      rw [htd] at hpn
      cases ds with
      | nil => simp at hpn
      | cons d ds2 =>
        simp only [Option.some.injEq] at hpn
        rw [← hpn]
    simp only [Option.some_bind]
    rw [hrest, expectChar_dash_takeDigits s h]
    rfl

theorem digitChar_ne_dash (n : ℕ) : Nat.digitChar n ≠ '-' := by
  rcases Nat.lt_or_ge n 16 with hlt | hge
  · interval_cases n <;> decide
  · have hstar : Nat.digitChar n = '*' := by
      have c0 : ¬ n = 0 := by omega
      have c1 : ¬ n = 1 := by omega
      have c2 : ¬ n = 2 := by omega
      have c3 : ¬ n = 3 := by omega
      have c4 : ¬ n = 4 := by omega
      have c5 : ¬ n = 5 := by omega
      have c6 : ¬ n = 6 := by omega
      have c7 : ¬ n = 7 := by omega
      have c8 : ¬ n = 8 := by omega
      have c9 : ¬ n = 9 := by omega
      have c10 : ¬ n = 10 := by omega
      have c11 : ¬ n = 11 := by omega
      have c12 : ¬ n = 12 := by omega
      have c13 : ¬ n = 13 := by omega
      have c14 : ¬ n = 14 := by omega
      have c15 : ¬ n = 15 := by omega
      simp only [Nat.digitChar, c0, c1, c2, c3, c4, c5, c6, c7, c8, c9,
        c10, c11, c12, c13, c14, c15, if_false]
    rw [hstar]
    decide

theorem format_timestamp_no_dash (tz : ℤ) (valid : Bool) (ts : ℕ) :
    '-' ∉ (format_timestamp tz valid ts).data := by
  cases valid with
  | false =>
    simp only [format_timestamp, Bool.false_eq_true, if_false]
    decide
  | true =>
    intro hmem
    simp only [format_timestamp, if_true, pad2, String.data,
      List.cons_append, List.nil_append, List.mem_cons,
      List.not_mem_nil, or_false] at hmem
    rcases hmem with h | h | h | h | h | h | h | h
    · exact digitChar_ne_dash _ h.symm
    · exact digitChar_ne_dash _ h.symm
    · exact absurd h (by decide)
    · exact digitChar_ne_dash _ h.symm
    · exact digitChar_ne_dash _ h.symm
    · exact absurd h (by decide)
    · exact digitChar_ne_dash _ h.symm
    · exact digitChar_ne_dash _ h.symm

/-- Claim C10: the registry formats a process's start time as an
`"%H:%M:%S"` string (`format_timestamp`), while the exit detector
parses that string with the format `"%Y-%m-%d %H:%M:%S"`; the formatted
string never contains a `'-'`, so the parse fails for every record and
the 0 fallback is always taken: every exit-log entry synthesized from a
record whose start-time string came from `format_timestamp` has
`uptime_secs = 0`. -/
theorem c10_uptime_always_zero :
    ∀ (toEpoch : ℕ × ℕ × ℕ × ℕ × ℕ × ℕ → Option ℤ) (p : ProcessInfo)
      (exitTime : ℤ) (tz : ℤ) (valid : Bool) (ts : ℕ),
      p.startTime = format_timestamp tz valid ts →
      (mkExitEntry toEpoch p exitTime).uptime_secs = 0 := by
  intro toEpoch p exitTime tz valid ts h
  show computeUptime toEpoch p.startTime exitTime = 0
  rw [h]
  unfold computeUptime
  rw [parseYmdHms_none_of_no_dash _ (format_timestamp_no_dash tz valid ts)]

/-- Witness for C10: the vanished sample process, whose start-time
string is `format_timestamp 0 true 200`, yields an exit entry with
uptime 0 whatever the exit time. -/
theorem c10_uptime_always_zero_witness :
    (mkExitEntry (fun _ => none) sampleProcB 12345).uptime_secs = 0 :=
  c10_uptime_always_zero (fun _ => none) sampleProcB 12345 0 true 200 rfl

theorem strStartsWith_iff :
    ∀ (s p : List Char), strStartsWith s p = true ↔ ∃ r, s = p ++ r := by
  intro s p
  induction p generalizing s with
  | nil =>
    cases s with
    | nil => simp [strStartsWith]
    | cons a as => simp [strStartsWith]
  | cons c ps ih =>
    cases s with
    | nil => simp [strStartsWith]
    | cons a as =>
      simp only [strStartsWith, Bool.and_eq_true, decide_eq_true_eq,
        List.cons_append]
      rw [ih as]
      constructor
      · rintro ⟨h1, r, h2⟩
        exact ⟨r, by rw [h1, h2]⟩
      · rintro ⟨r, h⟩
        injection h with h1 h2
        exact ⟨h1, r, h2⟩

theorem containsSub_iff :
    ∀ (s p : List Char), containsSub s p = true ↔ ∃ l r, s = l ++ p ++ r := by
  intro s p
  induction s with
  | nil =>
    rw [show containsSub [] p = (strStartsWith [] p || false) from rfl]
    simp only [Bool.or_false]
    rw [strStartsWith_iff]
    constructor
    · rintro ⟨r, h⟩
      exact ⟨[], r, by simpa using h⟩
    · rintro ⟨l, r, h⟩
      rcases List.append_eq_nil.mp
        (List.append_eq_nil.mp h.symm).1 with ⟨hl, hp⟩
      refine ⟨[], ?_⟩
      rw [hp]
      simp
  | cons a as ih =>
    rw [show containsSub (a :: as) p
        = (strStartsWith (a :: as) p || containsSub as p) from rfl]
    rw [Bool.or_eq_true, strStartsWith_iff, ih]
    constructor
    · rintro (⟨r, h⟩ | ⟨l, r, h⟩)
      · exact ⟨[], r, by simpa using h⟩
      · exact ⟨a :: l, r, by simp [h]⟩
    · rintro ⟨l, r, h⟩
      cases l with
      | nil =>
        exact Or.inl ⟨r, by simpa using h⟩
      | cons b l2 =>
        simp only [List.cons_append, List.append_assoc] at h
        injection h with h1 h2
        exact Or.inr ⟨l2, r, by simp [h2]⟩

/-- Counterexample to claim C5 as stated: the source's `user` filter is
case-sensitive, not case-insensitive.  For filter `(user, "ROOT")` and
a record whose resolved user name is `"root"`, case-insensitive
substring containment holds — the spec-worded predicate
`claimShouldInclude` includes the record — yet the code's
`shouldInclude` excludes it. -/
theorem c5_user_filter_counterexample :
    shouldInclude "user" "ROOT" sampleProc = false ∧
    claimShouldInclude "user" "ROOT" sampleProc = true := by
  constructor
  · decide
  · decide

/-- Claim C5 (amended): with mode `name` the record is included iff its
lowercased name contains the lowercased filter value as a substring
(case-insensitive containment); with mode `user` the record is included
iff its resolved user name contains the filter value as a
*case-sensitive* substring; with mode `pid` (resp. `ppid`) the record
is included iff the decimal string of its pid (resp. parent pid, absent
parent excluding the record) contains the filter value as a substring —
string containment, not numeric equality. -/
theorem c5_filter_characterization :
    ∀ (value : String) (p : ProcessInfo),
      (shouldInclude "user" value p = true ↔
        ∃ u, p.user = some u ∧ ∃ l r, u.data = l ++ value.data ++ r) ∧
      (shouldInclude "name" value p = true ↔
        ∃ l r, lowerChars p.name.data = l ++ lowerChars value.data ++ r) ∧
      (shouldInclude "pid" value p = true ↔
        ∃ l r, (toString p.pid).data = l ++ value.data ++ r) ∧
      (shouldInclude "ppid" value p = true ↔
        ∃ pp, p.parent_pid = some pp ∧
          ∃ l r, (toString pp).data = l ++ value.data ++ r) := by
  intro value p
  refine ⟨?_, ?_, ?_, ?_⟩
  · rw [show shouldInclude "user" value p
        = (match p.user with
           | some u => containsSub u.data value.data
           | none => false) from rfl]
    cases hu : p.user with
    | none => simp
    | some u => simp [containsSub_iff]
  · rw [show shouldInclude "name" value p
        = containsSub (lowerChars p.name.data) (lowerChars value.data)
        from rfl]
    exact containsSub_iff _ _
  · rw [show shouldInclude "pid" value p
        = containsSub (toString p.pid).data value.data from rfl]
    exact containsSub_iff _ _
  · rw [show shouldInclude "ppid" value p
        = (match p.parent_pid with
           | some pp => containsSub (toString pp).data value.data
           | none => false) from rfl]
    cases hp : p.parent_pid with
    | none => simp
    | some pp => simp [containsSub_iff]

/-- Witness for the amended C5: the case-sensitive `user` filter
`"root"` matches the sample record whose user is `"root"`. -/
theorem c5_filter_characterization_witness :
    shouldInclude "user" "root" sampleProc = true :=
  (c5_filter_characterization "root" sampleProc).1.mpr
    ⟨"root", rfl, [], [], by decide⟩
